import Mathlib

/-!
Verification of the variable-size, page-backed memory manager
(`VariableMemoryManager` in `MemoryManager.cpp` / `MemoryManager.h`).

The allocator keeps a singly linked list of pages; each page owns a byte
buffer that starts with an intrusive doubly linked list of `MetaData`
headers, one per block.  We embed a page's buffer as an association list
from header offsets (byte offsets inside the chunk) to `MetaData` records.
Null pointers are `none`; the uninitialized `pageIndex` field (the source
never writes it in the constructor, in `RequestPage`, or in the growth-path
carve) is modelled as `none`.  Dereferencing a null or dangling link, or
reading the uninitialized `pageIndex`, surfaces as an explicit failure
result rather than undefined behavior.

`unsigned` fields are embedded as `Nat`; at the arithmetic sites where the
source can wrap (the growth-path size subtraction, the `memLeft`
bookkeeping, the coalescing additions) we reduce modulo `2 ^ 32`
explicitly.  `unsigned short` (the page index) reduces modulo `2 ^ 16`.
`sizeof(MetaData)` is the constant `H = 16` (4-byte `unsigned`, two 4-byte
pointers, 2-byte `unsigned short`, `bool`, padding byte), matching the
layout the specification describes.
-/

namespace VMM

/-- `2 ^ 32`, the modulus of the C++ `unsigned` fields. -/
def W32 : Nat := 4294967296

/-- `2 ^ 16`, the modulus of the C++ `unsigned short` fields. -/
def W16 : Nat := 65536

/-- `sizeof(MetaData)`: the inline header size in bytes. -/
def H : Nat := 16

/-- Wrapping 32-bit unsigned addition. -/
def uadd32 (a b : Nat) : Nat := (a + b) % W32

/-- Wrapping 32-bit unsigned subtraction. -/
def usub32 (a b : Nat) : Nat := (a % W32 + (W32 - b % W32)) % W32

/-- The inline block header (`struct MetaData` in `MemoryManager.h`).
`Next`/`Prev` hold the byte offset of the neighbouring header inside the
same page chunk, `none` standing for a null pointer.  `pageIndex` is
`none` while the field is uninitialized. -/
structure MetaData where
  Size : Nat
  Next : Option Nat
  Prev : Option Nat
  pageIndex : Option Nat
  available : Bool
  deriving DecidableEq, Repr

/-- The headers physically present in a page chunk: an association list
from header offset to header contents.  Splicing a header out of the
doubly linked list leaves its bytes (and hence its map entry) in place,
exactly as in raw memory. -/
abbrev BlockMap := List (Nat × MetaData)

/-- Read the header stored at offset `o`, if any. -/
def lookupB : BlockMap → Nat → Option MetaData
  | [], _ => none
  | (k, v) :: rest, o => if k = o then some v else lookupB rest o

/-- Write a header at offset `o`, replacing the previous contents. -/
def insertB : BlockMap → Nat → MetaData → BlockMap
  | [], o, v => [(o, v)]
  | (k, w) :: rest, o, v =>
    if k = o then (k, v) :: rest else (k, w) :: insertB rest o v

/-- One page (`struct Page`): its free-byte counter, its index and the
headers living inside its chunk. -/
structure Page where
  memLeft : Nat
  index : Nat
  blocks : BlockMap
  deriving DecidableEq, Repr

/-- The manager (`class VariableMemoryManager`): configured page size,
fragmentation threshold, growth flag, the page list (in list order,
`lastPage` being the last element) and the page counter. -/
structure VariableMemoryManager where
  pageSize : Nat
  fragmentThreshold : Nat
  bAllocate : Bool
  pages : List Page
  pageCount : Nat
  deriving DecidableEq, Repr

/-- The constructor: one page of `pageSize` bytes whose chunk starts with
a single header of size `pageSize - H`, both links null, `available`;
`memLeft = pageSize - H`, `index = 0`, `pageCount = 1`.  The constructor
writes `Prev`, `Next`, `Size` and `available` only: `pageIndex` stays
uninitialized (`none`). -/
def mkManager (pageSizeInBytes fragmentThreshold : Nat)
    (allocateUponNoFreeSpace : Bool) : VariableMemoryManager :=
  { pageSize := pageSizeInBytes
    fragmentThreshold := fragmentThreshold
    bAllocate := allocateUponNoFreeSpace
    pages := [{ memLeft := usub32 pageSizeInBytes H
                index := 0
                blocks := [(0, { Size := usub32 pageSizeInBytes H
                                 Next := none
                                 Prev := none
                                 pageIndex := none
                                 available := true })] }]
    pageCount := 1 }

/-- The fresh page built by `RequestPage`: a single available header of
size `pageSize - H` at offset 0, `index = pageCount` (truncated to
`unsigned short`).  As in the constructor, `pageIndex` is not written. -/
def freshPage (m : VariableMemoryManager) : Page :=
  { memLeft := usub32 m.pageSize H
    index := m.pageCount % W16
    blocks := [(0, { Size := usub32 m.pageSize H
                     Next := none
                     Prev := none
                     pageIndex := none
                     available := true })] }

/-- `RequestPage`: append a fresh page after `lastPage` and bump
`pageCount`. -/
def RequestPage (m : VariableMemoryManager) : VariableMemoryManager :=
  { m with pages := m.pages ++ [freshPage m]
           pageCount := (m.pageCount + 1) % W32 }

/-- Walk the `Next` chain of headers starting from `cur`, returning the
visited `(offset, header)` pairs.  `none` when a link points at an offset
that holds no header or when the fuel runs out (a cycle). -/
def walkChain (bm : BlockMap) : Option Nat → Nat → Option (List (Nat × MetaData))
  | none, _ => some []
  | some _, 0 => none
  | some o, fuel + 1 =>
    match lookupB bm o with
    | none => none
    | some d => (walkChain bm d.Next fuel).map (fun rest => (o, d) :: rest)

/-- The block list of a page, read from the first header at offset 0.
The fuel `bm.length + 1` suffices for every terminating chain. -/
def chainOf (p : Page) : Option (List (Nat × MetaData)) :=
  walkChain p.blocks (some 0) (p.blocks.length + 1)

/-- The inner `while (data)` loop of `Allocate`: walk the block list,
skip blocks that are unavailable or too small, and keep the first block
of strictly maximal size seen so far (worst fit, first-in-address-order
tie-break). -/
def scanBlocks (size : Nat) : List (Nat × MetaData) →
    Option (Nat × MetaData) → Option (Nat × MetaData)
  | [], best => best
  | (o, d) :: rest, best =>
    if d.available = false ∨ size > d.Size then scanBlocks size rest best
    else
      match best with
      | none => scanBlocks size rest (some (o, d))
      | some b =>
        if d.Size > b.2.Size then scanBlocks size rest (some (o, d))
        else scanBlocks size rest best

/-- Result of the page scan in `Allocate`. -/
inductive ScanResult where
  /-- A candidate was found: page position in the page list, the page,
  the candidate's offset and header. -/
  | found (i : Nat) (p : Page) (o : Nat) (d : MetaData)
  /-- Every page was skipped or exhausted. -/
  | exhausted
  /-- The model could not follow a block chain (dangling link or cycle). -/
  | stuck
  deriving DecidableEq, Repr

/-- Shift the page position of a scan result by one. -/
def bumpScan : ScanResult → ScanResult
  | .found i p o d => .found (i + 1) p o d
  | r => r

/-- The outer `while (p)` loop of `Allocate`: skip a page whenever
`size >= p.memLeft`, otherwise scan its block list; move on when no
candidate exists in the page. -/
def scanPages (size : Nat) : List Page → ScanResult
  | [] => .exhausted
  | p :: rest =>
    if size ≥ p.memLeft then bumpScan (scanPages size rest)
    else
      match walkChain p.blocks (some 0) (p.blocks.length + 1) with
      | none => .stuck
      | some chain =>
        match scanBlocks size chain none with
        | none => bumpScan (scanPages size rest)
        | some (o, d) => .found 0 p o d

/-- The placement step of `Allocate` (lines 144-177): given the chosen
block `d` at offset `o` of page `p`, either split off the headroom into a
new available header at `o + H + size` or absorb it, mark the block
unavailable, subtract its (possibly updated) size from `memLeft`, and
return the payload offset `o + H`.  `none` models the write through a
dangling `Next` link. -/
def placeBlock (thr : Nat) (p : Page) (o : Nat) (d : MetaData) (size : Nat) :
    Option (Page × Nat) :=
  let headroom := usub32 d.Size size
  if headroom > uadd32 thr H then
    let newOff := o + H + size
    match d.Next with
    | some nx =>
      match lookupB p.blocks nx with
      | none => none
      | some nd =>
        let b1 := insertB p.blocks nx { nd with Prev := some newOff }
        let b2 := insertB b1 newOff
          { Size := usub32 headroom H, Next := d.Next, Prev := some o
            pageIndex := some p.index, available := true }
        let b3 := insertB b2 o
          { d with Next := some newOff, Size := size, available := false }
        some ({ p with blocks := b3, memLeft := usub32 p.memLeft size }, o + H)
    | none =>
      let b2 := insertB p.blocks newOff
        { Size := usub32 headroom H, Next := none, Prev := some o
          pageIndex := some p.index, available := true }
      let b3 := insertB b2 o
        { d with Next := some newOff, Size := size, available := false }
      some ({ p with blocks := b3, memLeft := usub32 p.memLeft size }, o + H)
  else
    some ({ p with blocks := insertB p.blocks o { d with available := false }
                   memLeft := usub32 p.memLeft d.Size }, o + H)

/-- Result of `Allocate`.  A returned pointer is a pair of the owning
page's position in the page list and the payload's byte offset inside
that page's chunk. -/
inductive AllocResult where
  /-- A pointer was returned. -/
  | success (m : VariableMemoryManager) (pagePos : Nat) (ptrOff : Nat)
  /-- `size > pageSize`: the null-pointer failure signal. -/
  | nullReturn
  /-- Growth disabled and no candidate: the process aborts. -/
  | aborted
  /-- The model could not follow a link (dangling pointer or cycle). -/
  | stuck
  deriving DecidableEq, Repr

/-- `Allocate`: reject oversized requests, scan the pages for a worst-fit
candidate and place into it, and otherwise (growth enabled) request a new
page and carve the request out of its initial block.  The growth-path
carve (lines 203-219) unconditionally writes a new header at offset
`H + size` with size `(pageSize - H) - (size + H)` in wrapping unsigned
arithmetic, never consults `fragmentThreshold`, never touches `memLeft`
and never writes `pageIndex`. -/
def Allocate (m : VariableMemoryManager) (size : Nat) : AllocResult :=
  if size > m.pageSize then .nullReturn
  else
    match scanPages size m.pages with
    | .stuck => .stuck
    | .found i p o d =>
      match placeBlock m.fragmentThreshold p o d size with
      | none => .stuck
      | some (p2, ptr) => .success { m with pages := m.pages.set i p2 } i ptr
    | .exhausted =>
      if m.bAllocate = false then .aborted
      else
        let m1 := RequestPage m
        match (m1.pages).getLast? with
        | none => .stuck
        | some p =>
          match lookupB p.blocks 0 with
          | none => .stuck
          | some curr =>
            let newOff := H + size
            let newMd : MetaData :=
              { Size := usub32 curr.Size (size + H), Next := none
                Prev := some 0, pageIndex := none, available := true }
            let currMd : MetaData :=
              { curr with Next := some newOff, Size := size, available := false }
            let p2 := { p with blocks := insertB (insertB p.blocks newOff newMd) 0 currMd }
            let li := m1.pages.length - 1
            .success { m1 with pages := m1.pages.set li p2 } li H

/-- Result of `Free`. -/
inductive FreeResult where
  /-- The call completed. -/
  | ok (m : VariableMemoryManager)
  /-- The forward coalesce dereferenced a null `Next` link. -/
  | nullDeref
  /-- The page-lookup loop read the uninitialized `pageIndex` field. -/
  | uninitRead
  /-- A link or the argument pointer referred to no stored header. -/
  | danglingDeref
  deriving DecidableEq, Repr

/-- `Free`: mark the header in front of the payload available, credit the
page found by walking `pageIndex` steps down the page list (stopping at
the tail), coalesce forward — the source dereferences `Next` without a
null check — and then coalesce backward — the source never repairs
`Next.Prev` there. -/
def Free (m : VariableMemoryManager) (pagePos ptrOff : Nat) : FreeResult :=
  match m.pages.get? pagePos with
  | none => .danglingDeref
  | some page =>
    match lookupB page.blocks (ptrOff - H) with
    | none => .danglingDeref
    | some md0 =>
      let hOff := ptrOff - H
      let md1 := { md0 with available := true }
      let blocks1 := insertB page.blocks hOff md1
      match md1.pageIndex with
      | none => .uninitRead
      | some pi =>
        let wp := min pi (m.pages.length - 1)
        match md1.Next with
        | none => .nullDeref
        | some nx =>
          match lookupB blocks1 nx with
          | none => .danglingDeref
          | some nxd =>
            let fwd := nxd.available
            let md2 := if fwd then
                { md1 with Size := uadd32 md1.Size (uadd32 nxd.Size H)
                           Next := nxd.Next }
              else md1
            let blocks2 := insertB blocks1 hOff md2
            let afterBwd : Option (BlockMap × Bool) :=
              match md2.Prev with
              | none => some (blocks2, false)
              | some pv =>
                match lookupB blocks2 pv with
                | none => none
                | some pvd =>
                  if pvd.available then
                    some (insertB blocks2 pv
                      { pvd with Size := uadd32 pvd.Size (uadd32 md2.Size H)
                                 Next := md2.Next }, true)
                  else some (blocks2, false)
            match afterBwd with
            | none => .danglingDeref
            | some (blocks3, bwd) =>
              let credit := fun x =>
                let x1 := uadd32 x md0.Size
                let x2 := if fwd then uadd32 x1 H else x1
                if bwd then uadd32 x2 H else x2
              let pagesA := m.pages.set pagePos { page with blocks := blocks3 }
              match pagesA.get? wp with
              | none => .danglingDeref
              | some q =>
                .ok { m with pages := pagesA.set wp { q with memLeft := credit q.memLeft } }

/-- Run `Allocate` for its state effect, keeping the state unchanged on
any non-success result (test harness plumbing for concrete runs). -/
def stepAlloc (m : VariableMemoryManager) (size : Nat) : VariableMemoryManager :=
  match Allocate m size with
  | .success m2 _ _ => m2
  | _ => m

/-- Run `Free` for its state effect, keeping the state unchanged on any
failure result (test harness plumbing for concrete runs). -/
def stepFree (m : VariableMemoryManager) (pagePos ptrOff : Nat) : VariableMemoryManager :=
  match Free m pagePos ptrOff with
  | .ok m2 => m2
  | _ => m

/-- Sum of `Size` over the available blocks of a page's block list. -/
def availSumChain (p : Page) : Option Nat :=
  (chainOf p).map (fun l => ((l.filter (fun x => x.2.available)).map (fun x => x.2.Size)).sum)

/-- Eligibility of a block for a request of `size` bytes: the inner-loop
filter of `Allocate` keeps exactly the available blocks of sufficient size. -/
abbrev elig (size : Nat) (x : Nat × MetaData) : Prop :=
  x.2.available = true ∧ size ≤ x.2.Size

theorem not_elig_iff (size : Nat) (o : Nat) (d : MetaData) :
    (d.available = false ∨ size > d.Size) ↔ ¬ elig size (o, d) := by
  cases h : d.available
  · simp [elig, h]
  · simp [elig, h]

theorem lookupB_insertB_self (bm : BlockMap) (o : Nat) (v : MetaData) :
    lookupB (insertB bm o v) o = some v := by
  induction bm with
  | nil => simp [insertB, lookupB]
  | cons hd tl ih =>
    obtain ⟨k, w⟩ := hd
    by_cases hk : k = o
    · subst hk; simp [insertB, lookupB]
    · simp [insertB, lookupB, hk, ih]

theorem lookupB_insertB_ne (bm : BlockMap) (o k : Nat) (v : MetaData)
    (h : k ≠ o) : lookupB (insertB bm o v) k = lookupB bm k := by
  induction bm with
  | nil => simp [insertB, lookupB, Ne.symm h]
  | cons hd tl ih =>
    obtain ⟨k0, w⟩ := hd
    by_cases hk : k0 = o
    · subst hk
      simp [insertB, lookupB, Ne.symm h]
    · by_cases hkk : k0 = k
      · subst hkk; simp [insertB, lookupB, hk]
      · simp [insertB, lookupB, hk, hkk, ih]

theorem scanBlocks_acc_isSome (size : Nat) (l : List (Nat × MetaData)) :
    ∀ b, (scanBlocks size l (some b)).isSome := by
  induction l with
  | nil => intro b; simp [scanBlocks]
  | cons hd tl ih =>
    intro b
    obtain ⟨o, d⟩ := hd
    by_cases hc : d.available = false ∨ size > d.Size
    · simpa [scanBlocks, hc] using ih b
    · simp only [scanBlocks, if_neg hc]
      by_cases hs : d.Size > b.2.Size
      · simpa [hs] using ih (o, d)
      · simpa [hs] using ih b

theorem scanBlocks_some_spec (size : Nat) (l : List (Nat × MetaData)) :
    ∀ b r, scanBlocks size l (some b) = some r →
      (r = b ∧ ∀ j x, l.get? j = some x → elig size x → x.2.Size ≤ b.2.Size) ∨
      (∃ n, l.get? n = some r ∧ elig size r ∧ b.2.Size < r.2.Size ∧
        (∀ j x, j < n → l.get? j = some x → elig size x → x.2.Size < r.2.Size) ∧
        (∀ j x, l.get? j = some x → elig size x → x.2.Size ≤ r.2.Size)) := by
  induction l with
  | nil =>
    intro b r h
    simp [scanBlocks] at h
    exact Or.inl ⟨h.symm, by intro j x hj; simp at hj⟩
  | cons hd tl ih =>
    intro b r h
    obtain ⟨o, d⟩ := hd
    by_cases hc : d.available = false ∨ size > d.Size
    · have hne : ¬ elig size (o, d) := (not_elig_iff size o d).mp hc
      rw [scanBlocks, if_pos hc] at h
      rcases ih b r h with ⟨hrb, hbound⟩ | ⟨n, hget, helig, hblt, hprior, hglob⟩
      · refine Or.inl ⟨hrb, ?_⟩
        intro j x hj hx
        cases j with
        | zero =>
          simp at hj
          exact absurd (hj ▸ hx) hne
        | succ j => exact hbound j x (by simpa using hj) hx
      · refine Or.inr ⟨n + 1, by simpa using hget, helig, hblt, ?_, ?_⟩
        · intro j x hlt hj hx
          cases j with
          | zero =>
            simp at hj
            exact absurd (hj ▸ hx) hne
          | succ j => exact hprior j x (by omega) (by simpa using hj) hx
        · intro j x hj hx
          cases j with
          | zero =>
            simp at hj
            exact absurd (hj ▸ hx) hne
          | succ j => exact hglob j x (by simpa using hj) hx
    · have helighd : elig size (o, d) := by
        by_contra hne
        exact hc ((not_elig_iff size o d).mpr hne)
      rw [scanBlocks, if_neg hc] at h
      by_cases hs : d.Size > b.2.Size
      · simp only [if_pos hs] at h
        rcases ih (o, d) r h with ⟨hrb, hbound⟩ | ⟨n, hget, helig, hblt, hprior, hglob⟩
        · subst hrb
          refine Or.inr ⟨0, by simp, helighd, hs, by intro j x hlt; omega, ?_⟩
          intro j x hj hx
          cases j with
          | zero => simp at hj; subst hj; exact Nat.le_refl _
          | succ j => exact hbound j x (by simpa using hj) hx
        · refine Or.inr ⟨n + 1, by simpa using hget, helig, Nat.lt_trans hs hblt, ?_, ?_⟩
          · intro j x hlt hj hx
            cases j with
            | zero => simp at hj; subst hj; exact hblt
            | succ j => exact hprior j x (by omega) (by simpa using hj) hx
          · intro j x hj hx
            cases j with
            | zero => simp at hj; subst hj; exact Nat.le_of_lt hblt
            | succ j => exact hglob j x (by simpa using hj) hx
      · simp only [if_neg hs] at h
        have hdb : d.Size ≤ b.2.Size := by omega
        rcases ih b r h with ⟨hrb, hbound⟩ | ⟨n, hget, helig, hblt, hprior, hglob⟩
        · refine Or.inl ⟨hrb, ?_⟩
          intro j x hj hx
          cases j with
          | zero => simp at hj; subst hj; exact hdb
          | succ j => exact hbound j x (by simpa using hj) hx
        · refine Or.inr ⟨n + 1, by simpa using hget, helig, hblt, ?_, ?_⟩
          · intro j x hlt hj hx
            cases j with
            | zero => simp at hj; subst hj; exact Nat.lt_of_le_of_lt hdb hblt
            | succ j => exact hprior j x (by omega) (by simpa using hj) hx
          · intro j x hj hx
            cases j with
            | zero => simp at hj; subst hj; exact Nat.le_trans hdb (Nat.le_of_lt hblt)
            | succ j => exact hglob j x (by simpa using hj) hx

theorem scanBlocks_start_spec (size : Nat) (l : List (Nat × MetaData)) :
    ∀ r, scanBlocks size l none = some r →
      ∃ n, l.get? n = some r ∧ elig size r ∧
        (∀ j x, j < n → l.get? j = some x → elig size x → x.2.Size < r.2.Size) ∧
        (∀ j x, l.get? j = some x → elig size x → x.2.Size ≤ r.2.Size) := by
  induction l with
  | nil => intro r h; simp [scanBlocks] at h
  | cons hd tl ih =>
    intro r h
    obtain ⟨o, d⟩ := hd
    by_cases hc : d.available = false ∨ size > d.Size
    · have hne : ¬ elig size (o, d) := (not_elig_iff size o d).mp hc
      rw [scanBlocks, if_pos hc] at h
      obtain ⟨n, hget, helig, hprior, hglob⟩ := ih r h
      refine ⟨n + 1, by simpa using hget, helig, ?_, ?_⟩
      · intro j x hlt hj hx
        cases j with
        | zero => simp at hj; exact absurd (hj ▸ hx) hne
        | succ j => exact hprior j x (by omega) (by simpa using hj) hx
      · intro j x hj hx
        cases j with
        | zero => simp at hj; exact absurd (hj ▸ hx) hne
        | succ j => exact hglob j x (by simpa using hj) hx
    · have helighd : elig size (o, d) := by
        by_contra hne
        exact hc ((not_elig_iff size o d).mpr hne)
      rw [scanBlocks, if_neg hc] at h
      rcases scanBlocks_some_spec size tl (o, d) r h with
        ⟨hrb, hbound⟩ | ⟨n, hget, helig, hblt, hprior, hglob⟩
      · subst hrb
        refine ⟨0, by simp, helighd, by intro j x hlt; omega, ?_⟩
        intro j x hj hx
        cases j with
        | zero => simp at hj; subst hj; exact Nat.le_refl _
        | succ j => exact hbound j x (by simpa using hj) hx
      · refine ⟨n + 1, by simpa using hget, helig, ?_, ?_⟩
        · intro j x hlt hj hx
          cases j with
          | zero => simp at hj; subst hj; exact hblt
          | succ j => exact hprior j x (by omega) (by simpa using hj) hx
        · intro j x hj hx
          cases j with
          | zero => simp at hj; subst hj; exact Nat.le_of_lt hblt
          | succ j => exact hglob j x (by simpa using hj) hx

theorem scanBlocks_none_spec (size : Nat) (l : List (Nat × MetaData)) :
    scanBlocks size l none = none →
      ∀ j x, l.get? j = some x → ¬ elig size x := by
  induction l with
  | nil => intro _ j x hj; simp at hj
  | cons hd tl ih =>
    intro h j x hj hx
    obtain ⟨o, d⟩ := hd
    by_cases hc : d.available = false ∨ size > d.Size
    · have hne : ¬ elig size (o, d) := (not_elig_iff size o d).mp hc
      rw [scanBlocks, if_pos hc] at h
      cases j with
      | zero => simp at hj; exact hne (hj ▸ hx)
      | succ j => exact ih h j x (by simpa using hj) hx
    · rw [scanBlocks, if_neg hc] at h
      have := scanBlocks_acc_isSome size tl (o, d)
      rw [h] at this
      simp at this

theorem bumpScan_found (r : ScanResult) (i : Nat) (p : Page) (o : Nat) (d : MetaData)
    (h : bumpScan r = .found i p o d) :
    ∃ i2, r = .found i2 p o d ∧ i = i2 + 1 := by
  cases r with
  | found i2 p2 o2 d2 =>
    simp only [bumpScan] at h
    obtain ⟨hi, hp, ho, hd⟩ := ScanResult.found.inj h
    exact ⟨i2, by rw [hp, ho, hd], hi.symm⟩
  | exhausted => simp [bumpScan] at h
  | stuck => simp [bumpScan] at h

theorem bumpScan_stuck (r : ScanResult) : bumpScan r = .stuck ↔ r = .stuck := by
  cases r <;> simp [bumpScan]

theorem bumpScan_exhausted (r : ScanResult) : bumpScan r = .exhausted ↔ r = .exhausted := by
  cases r <;> simp [bumpScan]

theorem scanPages_found_spec (size : Nat) :
    ∀ (pages : List Page) (i : Nat) (p : Page) (o : Nat) (d : MetaData),
      scanPages size pages = .found i p o d →
      pages.get? i = some p ∧ size < p.memLeft ∧
      (∃ l, walkChain p.blocks (some 0) (p.blocks.length + 1) = some l ∧
        scanBlocks size l none = some (o, d)) ∧
      ∀ j q, j < i → pages.get? j = some q →
        size ≥ q.memLeft ∨
        ∃ lq, walkChain q.blocks (some 0) (q.blocks.length + 1) = some lq ∧
          scanBlocks size lq none = none := by
  intro pages
  induction pages with
  | nil => intro i p o d h; simp [scanPages] at h
  | cons p0 rest ih =>
    intro i p o d h
    by_cases hf : size ≥ p0.memLeft
    · rw [scanPages, if_pos hf] at h
      obtain ⟨i2, hr, hi⟩ := bumpScan_found _ _ _ _ _ h
      obtain ⟨hget, hlt, hchain, hprior⟩ := ih i2 p o d hr
      subst hi
      refine ⟨by simpa using hget, hlt, hchain, ?_⟩
      intro j q hj hq
      cases j with
      | zero => simp at hq; exact Or.inl (hq ▸ hf)
      | succ j => exact hprior j q (by omega) (by simpa using hq)
    · cases hw : walkChain p0.blocks (some 0) (p0.blocks.length + 1) with
      | none =>
        simp only [scanPages, if_neg hf, hw] at h
        exact absurd h (by simp)
      | some chain =>
        cases hs : scanBlocks size chain none with
        | none =>
          simp only [scanPages, if_neg hf, hw, hs] at h
          obtain ⟨i2, hr, hi⟩ := bumpScan_found _ _ _ _ _ h
          obtain ⟨hget, hlt, hchain, hprior⟩ := ih i2 p o d hr
          subst hi
          refine ⟨by simpa using hget, hlt, hchain, ?_⟩
          intro j q hj hq
          cases j with
          | zero =>
            simp at hq
            subst hq
            exact Or.inr ⟨chain, hw, hs⟩
          | succ j => exact hprior j q (by omega) (by simpa using hq)
        | some od =>
          obtain ⟨o2, d2⟩ := od
          simp only [scanPages, if_neg hf, hw, hs] at h
          obtain ⟨hi, hp, ho, hd⟩ := ScanResult.found.inj h
          subst hi; subst hp; subst ho; subst hd
          refine ⟨by simp, by omega, ⟨chain, hw, hs⟩, ?_⟩
          intro j q hj hq
          omega

theorem scanPages_not_stuck (size : Nat) :
    ∀ (pages : List Page),
      (∀ j q, pages.get? j = some q →
        (walkChain q.blocks (some 0) (q.blocks.length + 1)).isSome) →
      scanPages size pages ≠ .stuck := by
  intro pages
  induction pages with
  | nil => intro _ h; simp [scanPages] at h
  | cons p0 rest ih =>
    intro hch h
    by_cases hf : size ≥ p0.memLeft
    · rw [scanPages, if_pos hf, bumpScan_stuck] at h
      exact ih (fun j q hj => hch (j + 1) q (by simpa using hj)) h
    · have h0 := hch 0 p0 (by simp)
      cases hw : walkChain p0.blocks (some 0) (p0.blocks.length + 1) with
      | none => rw [hw] at h0; simp at h0
      | some chain =>
        cases hs : scanBlocks size chain none with
        | none =>
          simp only [scanPages, if_neg hf, hw, hs] at h
          rw [bumpScan_stuck] at h
          exact ih (fun j q hj => hch (j + 1) q (by simpa using hj)) h
        | some od =>
          obtain ⟨o2, d2⟩ := od
          simp only [scanPages, if_neg hf, hw, hs] at h
          exact absurd h (by simp)

theorem walkChain_next_isSome (bm : BlockMap) :
    ∀ (fuel : Nat) (c : Option Nat) (l : List (Nat × MetaData)),
      walkChain bm c fuel = some l →
      ∀ j o d, l.get? j = some (o, d) → ∀ nx, d.Next = some nx →
        (lookupB bm nx).isSome := by
  intro fuel
  induction fuel with
  | zero =>
    intro c l h j o d hj nx hnx
    cases c with
    | none =>
      simp [walkChain] at h
      subst h
      simp at hj
    | some o0 => simp [walkChain] at h
  | succ fuel ih =>
    intro c l h j o d hj nx hnx
    cases c with
    | none =>
      simp [walkChain] at h
      subst h
      simp at hj
    | some o0 =>
      rw [walkChain] at h
      cases hl : lookupB bm o0 with
      | none => rw [hl] at h; simp at h
      | some d0 =>
        simp only [hl] at h
        cases hr : walkChain bm d0.Next fuel with
        | none => rw [hr] at h; simp at h
        | some rest =>
          rw [hr] at h
          simp at h
          subst h
          cases j with
          | zero =>
            simp at hj
            obtain ⟨ho, hd⟩ := hj
            subst hd
            rw [hnx] at hr
            cases fuel with
            | zero => simp [walkChain] at hr
            | succ f2 =>
              rw [walkChain] at hr
              cases hl2 : lookupB bm nx with
              | none => rw [hl2] at hr; simp at hr
              | some d2 => simp [hl2]
          | succ j => exact ih d0.Next rest hr j o d (by simpa using hj) nx hnx

theorem placeBlock_isSome (thr : Nat) (p : Page) (o : Nat) (d : MetaData) (size : Nat)
    (h : ∀ nx, d.Next = some nx → (lookupB p.blocks nx).isSome) :
    (placeBlock thr p o d size).isSome := by
  unfold placeBlock
  by_cases hc : usub32 d.Size size > uadd32 thr H
  · rw [if_pos hc]
    cases hnx : d.Next with
    | none => simp
    | some nx =>
      have := h nx hnx
      cases hl : lookupB p.blocks nx with
      | none => rw [hl] at this; simp at this
      | some nd => simp [hl]
  · rw [if_neg hc]
    simp

theorem getLast?_append_singleton {α : Type} (l : List α) (a : α) :
    (l ++ [a]).getLast? = some a := by
  rw [List.getLast?_append_cons]
  rfl

theorem set_append_last {α : Type} (l : List α) (a b : α) :
    (l ++ [a]).set l.length b = l ++ [b] := by
  induction l with
  | nil => rfl
  | cons hd tl ih => simp [List.set, ih]

theorem allocate_growth_eq (m : VariableMemoryManager) (size : Nat)
    (hgrow : m.bAllocate = true) (hsize : size ≤ m.pageSize)
    (hexh : scanPages size m.pages = .exhausted) :
    Allocate m size = .success
      { m with
          pages := m.pages ++
            [{ memLeft := usub32 m.pageSize H
               index := m.pageCount % W16
               blocks := [(0, { Size := size, Next := some (H + size), Prev := none
                                pageIndex := none, available := false }),
                          (H + size, { Size := usub32 (usub32 m.pageSize H) (size + H)
                                       Next := none, Prev := some 0
                                       pageIndex := none, available := true })] }]
          pageCount := (m.pageCount + 1) % W32 }
      m.pages.length H := by
  have hns : ¬ size > m.pageSize := by omega
  have h0ne : ¬ ((0 : Nat) = H + size) := by simp only [H]; omega
  rw [Allocate, if_neg hns, hexh]
  simp only [hgrow, RequestPage, getLast?_append_singleton, freshPage,
    List.length_append, List.length_singleton, Nat.add_sub_cancel,
    lookupB, insertB, if_pos rfl, if_neg h0ne, set_append_last]
  rfl

theorem placeBlock_some_ptr (thr : Nat) (p : Page) (o : Nat) (d : MetaData) (size : Nat)
    (h : ∀ nx, d.Next = some nx → (lookupB p.blocks nx).isSome) :
    ∃ p2, placeBlock thr p o d size = some (p2, o + H) := by
  unfold placeBlock
  by_cases hc : usub32 d.Size size > uadd32 thr H
  · rw [if_pos hc]
    cases hnx : d.Next with
    | none => exact ⟨_, rfl⟩
    | some nx =>
      have h2 := h nx hnx
      cases hl : lookupB p.blocks nx with
      | none => rw [hl] at h2; simp at h2
      | some nd =>
        simp only [hl]
        exact ⟨_, rfl⟩
  · rw [if_neg hc]
    exact ⟨_, rfl⟩

theorem usub32_eq_sub (a b : Nat) (hba : b ≤ a) (ha : a < W32) :
    usub32 a b = a - b := by
  simp only [usub32, W32] at *
  omega

theorem uadd32_eq_add (a b : Nat) (h : a + b < W32) : uadd32 a b = a + b := by
  simp only [uadd32, W32] at *
  omega

/-- Claim C3: the forward-coalesce step of `Free` is claimed to merge only
when `B.next` exists and is available, so that freeing the last block of a
page completes without dereferencing a null link.  The source
(`MemoryManager.cpp` line 246) dereferences `metaData->Next` with no null
check: freeing a block whose `Next` link is null crashes.  Concretely, on
a 100-byte manager, `Allocate 10` splits the initial block and
`Allocate 58` absorbs the split-off tail block (whose `Next` is null);
freeing that second pointer (page 0, payload offset 42) hits the null
dereference. -/
theorem free_last_block_null_deref :
    Free (stepAlloc (stepAlloc (mkManager 100 0 true) 10) 58) 0 42 =
      FreeResult.nullDeref := by
  rfl

/-- Claim C4: the backward-coalesce step of `Free` is claimed to set
`B.next.prev = B.prev` so that the links stay mutually consistent.  The
source (lines 253-261) omits that write.  Concrete run on a 300-byte
manager: four `Allocate 20` calls carve blocks at offsets 0, 36, 72, 108
with a free tail at 144; freeing payload 52 (block 36) and then payload 88
(block 72) makes block 72 coalesce backward into block 36, after which
block 36's `Next` is 108 but block 108's `Prev` is still 72 — the
spliced-out header — instead of 36. -/
theorem free_backward_coalesce_stale_prev :
    (Free (stepFree (stepAlloc (stepAlloc (stepAlloc (stepAlloc
        (mkManager 300 0 true) 20) 20) 20) 20) 0 52) 0 88 =
      FreeResult.ok (stepFree (stepFree (stepAlloc (stepAlloc (stepAlloc (stepAlloc
        (mkManager 300 0 true) 20) 20) 20) 20) 0 52) 0 88)) ∧
    (((stepFree (stepFree (stepAlloc (stepAlloc (stepAlloc (stepAlloc
        (mkManager 300 0 true) 20) 20) 20) 20) 0 52) 0 88).pages.get? 0).map
      (fun q => ((lookupB q.blocks 36).map (fun b => b.Next),
                 (lookupB q.blocks 108).map (fun b => b.Prev)))
      = some (some (some 108), some (some 72))) ∧
    (72 ≠ 36) :=
  ⟨rfl, rfl, by decide⟩

/-- Claim C5: `mem_left` is claimed to equal the sum of `Size` over the
page's available blocks after every operation.  The source never charges
`memLeft` for the header consumed by a split (line 175 subtracts only the
updated block size) and never updates `memLeft` at all in the growth-path
carve, so the equality breaks at the first split: on a 100-byte manager,
after `Allocate 10` page 0 has `memLeft = 74` while its available blocks
sum to `58`. -/
theorem memLeft_accounting_drift :
    (((stepAlloc (mkManager 100 0 true) 10).pages.get? 0).map
      (fun q => (q.memLeft, availSumChain q)) = some (74, some 58)) ∧
    (74 ≠ 58) :=
  ⟨rfl, by decide⟩

/-- Claim C6: walking `next` from the header at offset 0 is claimed to
advance `H + size` bytes per step and terminate exactly at the end of the
page buffer, so that the sizes sum to `page_size`.  The growth-path carve
(lines 203-219) writes the trailing header unconditionally at offset
`H + size` with wrapped size `(pageSize - H) - (size + H)` and no bounds
check: on a 100-byte manager, `Allocate 95` is served from a fresh page
whose chain is a 95-byte used block followed by a header at offset 111
(beyond the buffer) of size `2^32 - 27`, so the walk sums to
`4294967396`, not `100`. -/
theorem growth_carve_breaks_contiguity :
    (((stepAlloc (mkManager 100 0 true) 95).pages.get? 1).map
      (fun q => (chainOf q).map (fun l => (l.map (fun x => H + x.2.Size)).sum))
      = some (some 4294967396)) ∧
    ((mkManager 100 0 true).pageSize = 100) ∧ (4294967396 ≠ 100) :=
  ⟨rfl, rfl, by decide⟩

/-- Claim C8: construction and `RequestPage` are claimed to write the
initial header's `page_index`.  Neither does (constructor lines 60-64 and
`RequestPage` lines 289-293 write `Prev`, `Next`, `Size` and `available`
only), so the field stays uninitialized — modelled as `none` — in both the
constructor's page and every requested page. -/
theorem pageIndex_uninitialized :
    (((mkManager 5120 50 true).pages.get? 0).map
      (fun q => (lookupB q.blocks 0).map (fun b => b.pageIndex))
      = some (some none)) ∧
    (((RequestPage (mkManager 5120 50 true)).pages.get? 1).map
      (fun q => (lookupB q.blocks 0).map (fun b => b.pageIndex))
      = some (some none)) :=
  ⟨rfl, rfl⟩

/-- Claim C9: every successful `Allocate size` is claimed to return at
least `size` writable bytes inside the owning page's buffer.  On a
100-byte manager, `Allocate 90` skips page 0 (`90 >= memLeft = 84`) and is
served from a fresh growth page: the returned payload occupies offsets
`[16, 106)` of a 100-byte chunk, and the carve also writes a header at
offset 106, past the end of the buffer. -/
theorem growth_alloc_out_of_bounds :
    (Allocate (mkManager 100 0 true) 90 =
      AllocResult.success (stepAlloc (mkManager 100 0 true) 90) 1 16) ∧
    (((stepAlloc (mkManager 100 0 true) 90).pages.get? 1).map
      (fun q => (lookupB q.blocks 106).isSome) = some true) ∧
    ((mkManager 100 0 true).pageSize = 100) ∧ (100 < 16 + 90) :=
  ⟨rfl, rfl, rfl, by decide⟩

/-- Claim C2, counterexample: the claim places the chosen block in the
first page whose `mem_left > size`.  Reachable run on a 200-byte manager:
`Allocate 100` splits page 0 into a used 100 block and a free 68 block
(`memLeft = 84`); `Allocate 69` finds no block of size 69 in page 0
(68 < 69 although `memLeft = 84 > 69`) and is served from a growth page.
The next scan for 69 bytes then picks its candidate in page 1 even though
page 0 is the first page with `mem_left > 69`. -/
theorem worst_fit_first_page_cex :
    ((match scanPages 69 (stepAlloc (stepAlloc (mkManager 200 0 true) 100) 69).pages with
      | .found i _ _ _ => some i
      | _ => none) = some 1) ∧
    (((stepAlloc (stepAlloc (mkManager 200 0 true) 100) 69).pages.get? 0).map
      (fun q => q.memLeft) = some 84) ∧
    (69 < 84) :=
  ⟨rfl, rfl, by decide⟩

/-- Claim C7, counterexample: the claim says the growth-path carve uses
the normal split logic, absorbing the remainder when
`page_size - H - size ≤ H` (and, uniformly, when the headroom does not
exceed `fragment_threshold + H`).  Run on a 100-byte manager with
threshold 0: `Allocate 10` then `Allocate 58` leave `memLeft = 16`, so
`Allocate 70` takes the growth path; `100 - 16 - 70 = 14 ≤ 16` (and the
headroom `84 - 70 = 14` is below `threshold + H = 16`), so the claim
predicts an absorbed single used block — yet the code unconditionally
writes a split-off free header at offset 86 with wrapped size
`2^32 - 2`. -/
theorem growth_threshold_ignored_cex :
    (scanPages 70 (stepAlloc (stepAlloc (mkManager 100 0 true) 10) 58).pages =
      ScanResult.exhausted) ∧
    (((stepAlloc (stepAlloc (stepAlloc (mkManager 100 0 true) 10) 58) 70).pages.get? 1).map
      (fun q => lookupB q.blocks 86)
      = some (some { Size := 4294967294, Next := none, Prev := some 0
                     pageIndex := none, available := true })) ∧
    (100 - H - 70 ≤ H) :=
  ⟨rfl, rfl, by decide⟩

/-- Claim C1: when the page scan of `Allocate size` selects candidate `d`
at offset `o` of page `p` (position `i`), with headroom `d.Size - size`:
if the headroom strictly exceeds `fragmentThreshold + H`, the block is
split — the result page stores at `o + H + size` a new available header
of size `headroom - H` with `pageIndex = p.index`, spliced between the
candidate and its old successor (whose `Prev` is redirected when it
exists), and the candidate's size becomes `size`; otherwise the headroom
is absorbed and the candidate's size is unchanged.  In both cases the
candidate becomes unavailable and the returned pointer is the payload
offset `o + H`, the byte after the candidate's header. -/
theorem alloc_place_spec (m : VariableMemoryManager) (size i o : Nat)
    (p : Page) (d : MetaData)
    (hsize : size ≤ m.pageSize)
    (hscan : scanPages size m.pages = .found i p o d)
    (hdw : d.Size < W32)
    (hth : m.fragmentThreshold + H < W32) :
    ∃ p2, placeBlock m.fragmentThreshold p o d size = some (p2, o + H) ∧
      Allocate m size = .success { m with pages := m.pages.set i p2 } i (o + H) ∧
      (d.Size - size > m.fragmentThreshold + H →
        lookupB p2.blocks o =
          some { d with Next := some (o + H + size), Size := size, available := false } ∧
        lookupB p2.blocks (o + H + size) =
          some { Size := d.Size - size - H, Next := d.Next, Prev := some o
                 pageIndex := some p.index, available := true } ∧
        (∀ nx nd, d.Next = some nx → lookupB p.blocks nx = some nd →
          nx ≠ o → nx ≠ o + H + size →
          lookupB p2.blocks nx = some { nd with Prev := some (o + H + size) })) ∧
      (¬ d.Size - size > m.fragmentThreshold + H →
        lookupB p2.blocks o = some { d with available := false }) := by
  obtain ⟨hget, hlt, ⟨l, hw2, hs2⟩, hrest⟩ := scanPages_found_spec size m.pages i p o d hscan
  obtain ⟨n, hgetl, helig, hprior, hglob⟩ := scanBlocks_start_spec size l (o, d) hs2
  have hnxS : ∀ nx, d.Next = some nx → (lookupB p.blocks nx).isSome :=
    fun nx h2 =>
      walkChain_next_isSome p.blocks (p.blocks.length + 1) (some 0) l hw2 n o d hgetl nx h2
  have hns : ¬ size > m.pageSize := by omega
  have hH : H = 16 := rfl
  have hsub : usub32 d.Size size = d.Size - size := usub32_eq_sub _ _ helig.2 hdw
  have hadd : uadd32 m.fragmentThreshold H = m.fragmentThreshold + H := uadd32_eq_add _ _ hth
  by_cases hcnd : d.Size - size > m.fragmentThreshold + H
  · have hc : usub32 d.Size size > uadd32 m.fragmentThreshold H := by
      rw [hsub, hadd]; exact hcnd
    have hsub2 : usub32 (usub32 d.Size size) H = d.Size - size - H := by
      rw [hsub]; exact usub32_eq_sub _ _ (by omega) (by omega)
    have hno : o + H + size ≠ o := by omega
    cases hnx : d.Next with
    | none =>
      have hpb : placeBlock m.fragmentThreshold p o d size =
          some ({ p with
                    blocks := insertB (insertB p.blocks (o + H + size)
                      { Size := usub32 (usub32 d.Size size) H, Next := none
                        Prev := some o, pageIndex := some p.index, available := true }) o
                      { d with Next := some (o + H + size), Size := size
                               available := false }
                    memLeft := usub32 p.memLeft size }, o + H) := by
        simp only [placeBlock, if_pos hc, hnx]
      refine ⟨_, hpb, ?_, ?_, ?_⟩
      · simp only [Allocate, if_neg hns, hscan, hpb]
      · intro _
        refine ⟨lookupB_insertB_self _ _ _, ?_, ?_⟩
        · rw [show (lookupB (insertB (insertB p.blocks (o + H + size)
              { Size := usub32 (usub32 d.Size size) H, Next := none
                Prev := some o, pageIndex := some p.index, available := true }) o
              { d with Next := some (o + H + size), Size := size, available := false })
              (o + H + size)) =
              lookupB (insertB p.blocks (o + H + size)
                { Size := usub32 (usub32 d.Size size) H, Next := none
                  Prev := some o, pageIndex := some p.index, available := true })
                (o + H + size) from lookupB_insertB_ne _ _ _ _ hno,
            lookupB_insertB_self, hsub2]
        · intro nx nd hx
          exact absurd hx (by simp)
      · intro hn
        exact absurd hcnd hn
    | some nx0 =>
      have hlS := hnxS nx0 hnx
      cases hlnd : lookupB p.blocks nx0 with
      | none => rw [hlnd] at hlS; simp at hlS
      | some nd0 =>
        have hpb : placeBlock m.fragmentThreshold p o d size =
            some ({ p with
                      blocks := insertB (insertB (insertB p.blocks nx0
                          { nd0 with Prev := some (o + H + size) })
                        (o + H + size)
                        { Size := usub32 (usub32 d.Size size) H, Next := some nx0
                          Prev := some o, pageIndex := some p.index, available := true })
                        o
                        { d with Next := some (o + H + size), Size := size
                                 available := false }
                      memLeft := usub32 p.memLeft size }, o + H) := by
          simp only [placeBlock, if_pos hc, hnx, hlnd]
        refine ⟨_, hpb, ?_, ?_, ?_⟩
        · simp only [Allocate, if_neg hns, hscan, hpb]
        · intro _
          refine ⟨lookupB_insertB_self _ _ _, ?_, ?_⟩
          · rw [show (lookupB (insertB (insertB (insertB p.blocks nx0
                  { nd0 with Prev := some (o + H + size) })
                (o + H + size)
                { Size := usub32 (usub32 d.Size size) H, Next := some nx0
                  Prev := some o, pageIndex := some p.index, available := true }) o
                { d with Next := some (o + H + size), Size := size, available := false })
                (o + H + size)) =
                lookupB (insertB (insertB p.blocks nx0
                    { nd0 with Prev := some (o + H + size) })
                  (o + H + size)
                  { Size := usub32 (usub32 d.Size size) H, Next := some nx0
                    Prev := some o, pageIndex := some p.index, available := true })
                  (o + H + size) from lookupB_insertB_ne _ _ _ _ hno,
              lookupB_insertB_self, hsub2]
          · intro nx nd hx hnd hxo hxnew
            have hxx : nx0 = nx := by simpa using hx
            subst hxx
            rw [hlnd] at hnd
            have hnd0 : nd0 = nd := by simpa using hnd
            subst hnd0
            rw [lookupB_insertB_ne _ _ _ _ hxo,
              lookupB_insertB_ne _ _ _ _ hxnew,
              lookupB_insertB_self]
        · intro hn
          exact absurd hcnd hn
  · have hc : ¬ usub32 d.Size size > uadd32 m.fragmentThreshold H := by
      rw [hsub, hadd]; exact hcnd
    have hpb : placeBlock m.fragmentThreshold p o d size =
        some ({ p with blocks := insertB p.blocks o { d with available := false }
                       memLeft := usub32 p.memLeft d.Size }, o + H) := by
      simp only [placeBlock, if_neg hc]
    refine ⟨_, hpb, ?_, ?_, ?_⟩
    · simp only [Allocate, if_neg hns, hscan, hpb]
    · intro hcc
      exact absurd hcc hcnd
    · intro _
      exact lookupB_insertB_self _ _ _

/-- Witness for `alloc_place_spec`: on a fresh 100-byte manager with
threshold 0, `Allocate 10` selects the single initial 84-byte block; the
headroom 74 exceeds `0 + H`, so the block splits into a used 10-byte
block and a new free 58-byte block at offset 26. -/
theorem alloc_place_spec_witness :
    ∃ p2, placeBlock 0
        { memLeft := 84, index := 0
          blocks := [(0, { Size := 84, Next := none, Prev := none
                           pageIndex := none, available := true })] }
        0 { Size := 84, Next := none, Prev := none, pageIndex := none, available := true }
        10 = some (p2, 16) ∧
      Allocate (mkManager 100 0 true) 10 =
        .success { mkManager 100 0 true with
                   pages := (mkManager 100 0 true).pages.set 0 p2 } 0 16 ∧
      ((74 : Nat) > 16 →
        lookupB p2.blocks 0 =
          some { Size := 10, Next := some 26, Prev := none
                 pageIndex := none, available := false } ∧
        lookupB p2.blocks 26 =
          some { Size := 58, Next := none, Prev := some 0
                 pageIndex := some 0, available := true } ∧
        (∀ nx nd, (none : Option Nat) = some nx →
          lookupB [(0, { Size := 84, Next := none, Prev := none
                         pageIndex := none, available := true })] nx = some nd →
          nx ≠ 0 → nx ≠ 26 →
          lookupB p2.blocks nx = some { nd with Prev := some 26 })) ∧
      (¬ (74 : Nat) > 16 →
        lookupB p2.blocks 0 =
          some { Size := 84, Next := none, Prev := none
                 pageIndex := none, available := false }) :=
  alloc_place_spec (mkManager 100 0 true) 10 0 0
    { memLeft := 84, index := 0
      blocks := [(0, { Size := 84, Next := none, Prev := none
                       pageIndex := none, available := true })] }
    { Size := 84, Next := none, Prev := none, pageIndex := none, available := true }
    (by decide) rfl (by decide) (by decide)

/-- Claim C2 (amended): an `Allocate` served from the page-scan path picks
its candidate in the first page that both passes the fast filter
(`mem_left > size`) and contains an available block of size at least
`size`; pages failing the filter are skipped, and pages passing the filter
but containing no sufficient available block are passed over as well.
Within the chosen page the candidate is the available block of maximal
size among those with size at least `size`, the first such block in list
(address) order on ties, and `Allocate` returns its payload offset
`o + H`.  The original claim, which places the candidate in the first page
with `mem_left > size` outright, fails: see the counterexample. -/
theorem worst_fit_selection (m : VariableMemoryManager) (size i o : Nat)
    (p : Page) (d : MetaData)
    (hsize : size ≤ m.pageSize)
    (hscan : scanPages size m.pages = .found i p o d) :
    m.pages.get? i = some p ∧
    size < p.memLeft ∧
    (∃ l n, chainOf p = some l ∧ l.get? n = some (o, d) ∧
      d.available = true ∧ size ≤ d.Size ∧
      (∀ j x, l.get? j = some x → x.2.available = true → size ≤ x.2.Size →
        x.2.Size ≤ d.Size) ∧
      (∀ j x, j < n → l.get? j = some x → x.2.available = true → size ≤ x.2.Size →
        x.2.Size < d.Size)) ∧
    (∀ j q, j < i → m.pages.get? j = some q →
      q.memLeft ≤ size ∨
      ∃ lq, chainOf q = some lq ∧
        ∀ j2 x, lq.get? j2 = some x → ¬ (x.2.available = true ∧ size ≤ x.2.Size)) ∧
    (∃ p2, placeBlock m.fragmentThreshold p o d size = some (p2, o + H) ∧
      Allocate m size = .success { m with pages := m.pages.set i p2 } i (o + H)) := by
  obtain ⟨hget, hlt, ⟨l, hw2, hs2⟩, hrest⟩ := scanPages_found_spec size m.pages i p o d hscan
  obtain ⟨n, hgetl, helig, hprior, hglob⟩ := scanBlocks_start_spec size l (o, d) hs2
  have hnx : ∀ nx, d.Next = some nx → (lookupB p.blocks nx).isSome :=
    fun nx h2 =>
      walkChain_next_isSome p.blocks (p.blocks.length + 1) (some 0) l hw2 n o d hgetl nx h2
  obtain ⟨p2, hpb⟩ := placeBlock_some_ptr m.fragmentThreshold p o d size hnx
  have hns : ¬ size > m.pageSize := by omega
  refine ⟨hget, hlt, ⟨l, n, hw2, hgetl, helig.1, helig.2, ?_, ?_⟩, ?_, p2, hpb, ?_⟩
  · intro j x hj ha hs3
    exact hglob j x hj ⟨ha, hs3⟩
  · intro j x hjn hj ha hs3
    exact hprior j x hjn hj ⟨ha, hs3⟩
  · intro j q hj hq
    rcases hrest j q hj hq with hskip | ⟨lq, hwq, hsq⟩
    · exact Or.inl hskip
    · exact Or.inr ⟨lq, hwq, fun j2 x hx => scanBlocks_none_spec size lq hsq j2 x hx⟩
  · simp only [Allocate, if_neg hns, hscan, hpb]

/-- Witness for `worst_fit_selection`: on a fresh 100-byte manager the
scan for 10 bytes picks the single initial block of page 0. -/
theorem worst_fit_selection_witness :
    (mkManager 100 0 true).pages.get? 0 =
      some { memLeft := 84, index := 0
             blocks := [(0, { Size := 84, Next := none, Prev := none
                              pageIndex := none, available := true })] } ∧
    10 < (84 : Nat) ∧
    (∃ l n, chainOf { memLeft := 84, index := 0
                      blocks := [(0, { Size := 84, Next := none, Prev := none
                                       pageIndex := none, available := true })] } = some l ∧
      l.get? n = some (0, { Size := 84, Next := none, Prev := none
                            pageIndex := none, available := true }) ∧
      (true : Bool) = true ∧ (10 : Nat) ≤ 84 ∧
      (∀ j x, l.get? j = some x → x.2.available = true → 10 ≤ x.2.Size →
        x.2.Size ≤ 84) ∧
      (∀ j x, j < n → l.get? j = some x → x.2.available = true → 10 ≤ x.2.Size →
        x.2.Size < 84)) ∧
    (∀ j q, j < 0 → (mkManager 100 0 true).pages.get? j = some q →
      q.memLeft ≤ 10 ∨
      ∃ lq, chainOf q = some lq ∧
        ∀ j2 x, lq.get? j2 = some x → ¬ (x.2.available = true ∧ 10 ≤ x.2.Size)) ∧
    (∃ p2, placeBlock 0
        { memLeft := 84, index := 0
          blocks := [(0, { Size := 84, Next := none, Prev := none
                           pageIndex := none, available := true })] }
        0 { Size := 84, Next := none, Prev := none
            pageIndex := none, available := true } 10 = some (p2, 16) ∧
      Allocate (mkManager 100 0 true) 10 =
        .success { mkManager 100 0 true with
                   pages := (mkManager 100 0 true).pages.set 0 p2 } 0 16) :=
  worst_fit_selection (mkManager 100 0 true) 10 0 0
    { memLeft := 84, index := 0
      blocks := [(0, { Size := 84, Next := none, Prev := none
                       pageIndex := none, available := true })] }
    { Size := 84, Next := none, Prev := none, pageIndex := none, available := true }
    (by decide) rfl

/-- Claim C7 (amended): when the page scan finds no candidate, growth is
enabled and `size ≤ pageSize`, `Allocate` appends a fresh page at the tail
and carves it by an unconditional split: the initial block becomes a used
block of exactly `size` bytes linked to a new available header at offset
`H + size` whose size is `(pageSize - H) - (size + H)` in wrapping
unsigned arithmetic.  `fragmentThreshold` is never consulted, there is no
absorb case, the page's `memLeft` stays at `pageSize - H`, neither
header's `pageIndex` is written, and the returned pointer is payload
offset `H` of the new page. -/
theorem growth_always_splits (m : VariableMemoryManager) (size : Nat)
    (hgrow : m.bAllocate = true) (hsize : size ≤ m.pageSize)
    (hexh : scanPages size m.pages = .exhausted) :
    Allocate m size = .success
      { m with
          pages := m.pages ++
            [{ memLeft := usub32 m.pageSize H
               index := m.pageCount % W16
               blocks := [(0, { Size := size, Next := some (H + size), Prev := none
                                pageIndex := none, available := false }),
                          (H + size, { Size := usub32 (usub32 m.pageSize H) (size + H)
                                       Next := none, Prev := some 0
                                       pageIndex := none, available := true })] }]
          pageCount := (m.pageCount + 1) % W32 }
      m.pages.length H :=
  allocate_growth_eq m size hgrow hsize hexh

/-- Witness for `growth_always_splits`: a 100-byte manager with threshold
0 after `Allocate 10` and `Allocate 58` has `memLeft = 16`, so
`Allocate 20` takes the growth path and carves the fresh page into a used
20-byte block and a free 48-byte block. -/
theorem growth_always_splits_witness :
    Allocate (stepAlloc (stepAlloc (mkManager 100 0 true) 10) 58) 20 =
      AllocResult.success
        { pageSize := 100, fragmentThreshold := 0, bAllocate := true
          pages := [{ memLeft := 16, index := 0
                      blocks := [(0, { Size := 10, Next := some 26, Prev := none
                                       pageIndex := none, available := false }),
                                 (26, { Size := 58, Next := none, Prev := some 0
                                        pageIndex := some 0, available := false })] },
                    { memLeft := 84, index := 1
                      blocks := [(0, { Size := 20, Next := some 36, Prev := none
                                       pageIndex := none, available := false }),
                                 (36, { Size := 48, Next := none, Prev := some 0
                                        pageIndex := none, available := true })] }]
          pageCount := 2 }
        1 16 :=
  growth_always_splits (stepAlloc (stepAlloc (mkManager 100 0 true) 10) 58) 20
    rfl (by decide) rfl

/-- Claim C10: with growth enabled (and the model's system allocation
always succeeding), `Allocate` returns a pointer for every
`size ≤ pageSize` — every control path either places into a scanned page
or falls through to the growth carve — and returns the null-pointer
signal exactly when `size > pageSize`.  The hypothesis asks every page's
block chain to be walkable, which holds in every reachable state. -/
theorem alloc_total_success (m : VariableMemoryManager) (size : Nat)
    (hgrow : m.bAllocate = true)
    (hch : ∀ j q, m.pages.get? j = some q → (chainOf q).isSome) :
    (size ≤ m.pageSize → ∃ m2 i2 ptr, Allocate m size = .success m2 i2 ptr) ∧
    (m.pageSize < size → Allocate m size = .nullReturn) := by
  constructor
  · intro hsize
    have hns : ¬ size > m.pageSize := by omega
    cases hsc : scanPages size m.pages with
    | stuck => exact absurd hsc (scanPages_not_stuck size m.pages (fun j q hj => hch j q hj))
    | exhausted => exact ⟨_, _, _, allocate_growth_eq m size hgrow hsize hsc⟩
    | found i p o d =>
      obtain ⟨hget, hlt, ⟨l, hw2, hs2⟩, hrest⟩ := scanPages_found_spec size m.pages i p o d hsc
      obtain ⟨n, hgetl, helig, hprior, hglob⟩ := scanBlocks_start_spec size l (o, d) hs2
      have hnx : ∀ nx, d.Next = some nx → (lookupB p.blocks nx).isSome :=
        fun nx h2 =>
          walkChain_next_isSome p.blocks (p.blocks.length + 1) (some 0) l hw2 n o d hgetl nx h2
      have hpl := placeBlock_isSome m.fragmentThreshold p o d size hnx
      cases hpb : placeBlock m.fragmentThreshold p o d size with
      | none => rw [hpb] at hpl; simp at hpl
      | some pr =>
        obtain ⟨p2, ptr⟩ := pr
        refine ⟨{ m with pages := m.pages.set i p2 }, i, ptr, ?_⟩
        simp only [Allocate, if_neg hns, hsc, hpb]
  · intro hlt
    rw [Allocate, if_pos (by omega)]

/-- Witness for `alloc_total_success`: on a fresh 100-byte manager,
`Allocate 10` succeeds (`10 ≤ 100`). -/
theorem alloc_total_success_witness :
    ((10 ≤ (mkManager 100 0 true).pageSize →
      ∃ m2 i2 ptr, Allocate (mkManager 100 0 true) 10 = .success m2 i2 ptr) ∧
     ((mkManager 100 0 true).pageSize < 10 →
      Allocate (mkManager 100 0 true) 10 = .nullReturn)) :=
  alloc_total_success (mkManager 100 0 true) 10 rfl
    (by
      intro j q hj
      cases j with
      | zero =>
        simp [mkManager] at hj
        rw [← hj]
        decide
      | succ j => simp [mkManager] at hj)

end VMM
